import Mathlib

/-!
Verification of the pan-orbit camera library (`src/lib.rs`, `src/util.rs`,
`src/controls.rs`) against its natural-language specification.

The f32 arithmetic of the source is modelled over the real numbers.  The
vector/quaternion operations of the engine's math library (glam) that the
source calls are translated explicitly: quaternion Hamilton product,
quaternion action on vectors, axis-angle and Euler-angle constructors, the
YXZ Euler decomposition, Rust's truncating float remainder `%`, and Rust's
`clamp`/`max`/`min`.
-/

noncomputable section

namespace OrbitCam

/-- 2D vector (glam `Vec2`). -/
@[ext]
structure Vec2 where
  x : ℝ
  y : ℝ

/-- 3D vector (glam `Vec3`). -/
@[ext]
structure Vec3 where
  x : ℝ
  y : ℝ
  z : ℝ

/-- Quaternion, stored as (x, y, z, w) like glam `Quat`. -/
@[ext]
structure Quat where
  x : ℝ
  y : ℝ
  z : ℝ
  w : ℝ

instance : Add Vec2 := ⟨fun a b => ⟨a.x + b.x, a.y + b.y⟩⟩

instance : Add Vec3 := ⟨fun a b => ⟨a.x + b.x, a.y + b.y, a.z + b.z⟩⟩

@[simp]
theorem vec2_add_x (a b : Vec2) : (a + b).x = a.x + b.x := rfl

@[simp]
theorem vec2_add_y (a b : Vec2) : (a + b).y = a.y + b.y := rfl

@[simp]
theorem vec3_add_x (a b : Vec3) : (a + b).x = a.x + b.x := rfl

@[simp]
theorem vec3_add_y (a b : Vec3) : (a + b).y = a.y + b.y := rfl

@[simp]
theorem vec3_add_z (a b : Vec3) : (a + b).z = a.z + b.z := rfl

/-- Rust `f32::clamp(lo, hi)`: first raise to `lo`, then cap at `hi`. -/
def clampR (v lo hi : ℝ) : ℝ := min (max v lo) hi

/-- Truncation toward zero, as Rust float-to-int truncation does. -/
def truncR (q : ℝ) : ℤ := if 0 ≤ q then ⌊q⌋ else ⌈q⌉

/-- Rust `%` on floats: remainder with the sign of the dividend,
`x % y = x - y * trunc(x / y)`. -/
def rustRem (x y : ℝ) : ℝ := x - y * ((truncR (x / y) : ℤ) : ℝ)

/-- Rust `f32::signum` (sign of the IEEE sign bit; +1 for nonnegative reals). -/
def rustSignum (x : ℝ) : ℝ := if 0 ≤ x then 1 else -1

/-- Two-argument arctangent, the `atan2` the engine's math library uses. -/
def arctan2 (y x : ℝ) : ℝ :=
  if 0 < x then Real.arctan (y / x)
  else if x < 0 then
    (if 0 ≤ y then Real.arctan (y / x) + Real.pi else Real.arctan (y / x) - Real.pi)
  else
    (if 0 < y then Real.pi / 2 else if y < 0 then -(Real.pi / 2) else 0)

/-- glam `Quat::mul_quat` (Hamilton product, left factor applied second). -/
def quatMul (a b : Quat) : Quat :=
  ⟨a.w * b.x + a.x * b.w + a.y * b.z - a.z * b.y,
   a.w * b.y - a.x * b.z + a.y * b.w + a.z * b.x,
   a.w * b.z + a.x * b.y - a.y * b.x + a.z * b.w,
   a.w * b.w - a.x * b.x - a.y * b.y - a.z * b.z⟩

/-- The identity quaternion `Quat::IDENTITY`. -/
def quatOne : Quat := ⟨0, 0, 0, 1⟩

/-- glam `Quat::mul_vec3`: `v*(w²-|b|²) + b*(2 v·b) + (b × v)*(2w)` where
`b` is the quaternion's vector part. -/
def rotateVec (q : Quat) (v : Vec3) : Vec3 :=
  let b : Vec3 := ⟨q.x, q.y, q.z⟩
  let b2 : ℝ := b.x * b.x + b.y * b.y + b.z * b.z
  let d : ℝ := v.x * b.x + v.y * b.y + v.z * b.z
  let c : Vec3 := ⟨b.y * v.z - b.z * v.y, b.z * v.x - b.x * v.z, b.x * v.y - b.y * v.x⟩
  ⟨v.x * (q.w * q.w - b2) + b.x * (d * 2) + c.x * (q.w * 2),
   v.y * (q.w * q.w - b2) + b.y * (d * 2) + c.y * (q.w * 2),
   v.z * (q.w * q.w - b2) + b.z * (d * 2) + c.z * (q.w * 2)⟩

/-- glam `Quat::from_axis_angle` (axis assumed unit length by the caller). -/
def fromAxisAngle (axis : Vec3) (angle : ℝ) : Quat :=
  ⟨axis.x * Real.sin (angle / 2), axis.y * Real.sin (angle / 2),
   axis.z * Real.sin (angle / 2), Real.cos (angle / 2)⟩

/-- glam `Quat::from_rotation_x`. -/
def fromRotX (a : ℝ) : Quat := ⟨Real.sin (a / 2), 0, 0, Real.cos (a / 2)⟩

/-- glam `Quat::from_rotation_y`. -/
def fromRotY (a : ℝ) : Quat := ⟨0, Real.sin (a / 2), 0, Real.cos (a / 2)⟩

/-- glam `Quat::from_rotation_z`. -/
def fromRotZ (a : ℝ) : Quat := ⟨0, 0, Real.sin (a / 2), Real.cos (a / 2)⟩

/-- glam `Quat::from_euler(EulerRot::YXZ, yaw, pitch, roll)`:
rotation about Y, then X, then Z. -/
def fromEulerYXZ (yaw pitch roll : ℝ) : Quat :=
  quatMul (quatMul (fromRotY yaw) (fromRotX pitch)) (fromRotZ roll)

/-- glam YXZ Euler decomposition: the clamped sine of the middle (pitch)
angle. -/
def sineThetaYXZ (q : Quat) : ℝ := clampR (-2 * (q.y * q.z - q.w * q.x)) (-1) 1

/-- glam YXZ Euler decomposition, first (yaw) angle, with the gimbal-lock
guard at `|sin pitch| > 0.99999`. -/
def firstYXZ (q : Quat) : ℝ :=
  if |sineThetaYXZ q| > 0.99999 then
    2 * rustSignum (sineThetaYXZ q) * arctan2 (-q.z) q.w
  else
    arctan2 (2 * (q.x * q.z + q.w * q.y)) (q.w * q.w - q.x * q.x - q.y * q.y + q.z * q.z)

/-- glam YXZ Euler decomposition, second (pitch) angle: arcsine of the
clamped sine. -/
def secondYXZ (q : Quat) : ℝ := Real.arcsin (sineThetaYXZ q)

/-- glam YXZ Euler decomposition, third (roll) angle; zero in the
gimbal-lock case. -/
def thirdYXZ (q : Quat) : ℝ :=
  if |sineThetaYXZ q| > 0.99999 then 0
  else
    arctan2 (2 * (q.x * q.y + q.w * q.z)) (q.w * q.w - q.x * q.x + q.y * q.y - q.z * q.z)

/-- glam `Quat::to_euler(EulerRot::YXZ)` as a (yaw, pitch, roll) triple. -/
def toEulerYXZ (q : Quat) : ℝ × ℝ × ℝ := (firstYXZ q, secondYXZ q, thirdYXZ q)

/-- Bevy `Transform`, restricted to the two fields the library reads and
writes (`translation` and `rotation`; `scale` is never touched). -/
@[ext]
structure Transform where
  translation : Vec3
  rotation : Quat

/-- Bevy `PerspectiveProjection`, with the fields the library reads. -/
@[ext]
structure PerspectiveProjection where
  fov : ℝ
  aspect_ratio : ℝ
  near : ℝ
  far : ℝ

/-- Bevy `OrthographicProjection`, with the fields the library reads and
writes (`area` kept as its width and height). -/
@[ext]
structure OrthographicProjection where
  near : ℝ
  far : ℝ
  scale : ℝ
  area_width : ℝ
  area_height : ℝ

/-- Bevy `Projection`: perspective or orthographic. -/
inductive Projection where
  | perspective (p : PerspectiveProjection)
  | orthographic (p : OrthographicProjection)

/-- The `OrbitCamera` component (src/lib.rs lines 77-92).
`radius_limit: RangeInclusive<Option<f32>>` is modelled as the pair of its
start and end. -/
@[ext]
structure OrbitCamera where
  focus : Vec3
  radius : ℝ
  delta_yaw : ℝ
  delta_pitch : ℝ
  delta_roll : ℝ
  pan : Vec2
  radius_limit : Option ℝ × Option ℝ
  lock_up_axis : Bool

/-- `OrbitCamera::new` (src/lib.rs lines 101-112). -/
def OrbitCamera.new (focus : Vec3) (radius : ℝ) : OrbitCamera :=
  ⟨focus, radius, 0, 0, 0, ⟨0, 0⟩, (none, none), false⟩

/-- `OrbitCamera::reset_rotation_and_pan_deltas` (src/lib.rs lines 129-134). -/
def resetRotationAndPanDeltas (cam : OrbitCamera) : OrbitCamera :=
  { cam with delta_yaw := 0, delta_pitch := 0, delta_roll := 0, pan := ⟨0, 0⟩ }

/-- `OrbitCamera::update_transform` (src/lib.rs lines 136-158), the
per-frame resolver.  Returns the updated camera state, transform and
projection.  `transform.local_x()` etc. are Bevy's rotated unit axes, and
`Transform::rotate_axis` left-multiplies the axis-angle quaternion onto the
rotation. -/
def updateTransform (cam : OrbitCamera) (t : Transform) (proj : Projection) :
    OrbitCamera × Transform × Projection :=
  let rp : ℝ × Projection :=
    match proj with
    | .orthographic p => ((p.far + p.near) / 2, .orthographic { p with scale := cam.radius })
    | .perspective p => (cam.radius, .perspective p)
  let focus1 := cam.focus + rotateVec t.rotation ⟨cam.pan.x, cam.pan.y, 0⟩
  let rot1 :=
    if cam.lock_up_axis then
      let e := toEulerYXZ t.rotation
      let pitch1 := clampR (e.2.1 - cam.delta_pitch) (-(Real.pi / 2)) (Real.pi / 2)
      let yaw1 := e.1 + cam.delta_yaw
      fromEulerYXZ yaw1 pitch1 (0.6 * rustRem e.2.2 (2 * Real.pi))
    else
      let r1 := quatMul (fromAxisAngle (rotateVec t.rotation ⟨1, 0, 0⟩) (-cam.delta_pitch)) t.rotation
      let r2 := quatMul (fromAxisAngle (rotateVec r1 ⟨0, 1, 0⟩) cam.delta_yaw) r1
      quatMul (fromAxisAngle (rotateVec r2 ⟨0, 0, 1⟩) cam.delta_roll) r2
  let cam1 := { cam with focus := focus1, delta_yaw := 0, delta_pitch := 0,
                         delta_roll := 0, pan := ⟨0, 0⟩ }
  let t1 : Transform := { translation := focus1 + rotateVec rot1 ⟨0, 0, rp.1⟩, rotation := rot1 }
  (cam1, t1, rp.2)

/-- `OrbitCamera::zoom` (src/lib.rs lines 160-168): multiply the radius by
the factor, then clamp to the lower bound, then to the upper bound, each
only when set. -/
def zoom (cam : OrbitCamera) (factor : ℝ) : OrbitCamera :=
  let r0 := cam.radius * factor
  let r1 := match cam.radius_limit.1 with
    | some lower => max r0 lower
    | none => r0
  let r2 := match cam.radius_limit.2 with
    | some upper => min r1 upper
    | none => r1
  { cam with radius := r2 }

/-- A sequence of `zoom` calls. -/
def zoomSeq (cam : OrbitCamera) (fs : List ℝ) : OrbitCamera := fs.foldl zoom cam

/-- `OrbitCamera::pan` (src/lib.rs lines 170-172). -/
def panAccum (cam : OrbitCamera) (delta : Vec2) : OrbitCamera :=
  { cam with pan := cam.pan + delta }

/-- `OrbitCamera::orbit` (src/lib.rs lines 174-178). -/
def orbit (cam : OrbitCamera) (dy dp dr : ℝ) : OrbitCamera :=
  { cam with delta_yaw := cam.delta_yaw + dy, delta_pitch := cam.delta_pitch + dp,
             delta_roll := cam.delta_roll + dr }

/-- `calculate_pan_scaling_factor` (src/util.rs lines 17-36).  The camera
argument is reduced to what the function reads from it: the optional
physical viewport size. -/
def calculate_pan_scaling_factor (viewport : Option Vec2) (proj : Projection)
    (cam : OrbitCamera) : Option Vec2 :=
  match viewport with
  | some v =>
      some (match proj with
        | .perspective p =>
            ⟨cam.radius * p.fov * p.aspect_ratio / v.x, cam.radius * p.fov * 1 / v.y⟩
        | .orthographic p => ⟨p.area_width / v.x, p.area_height / v.y⟩)
  | none => none

/-- Bevy `FloatExt::lerp`: `a + (b - a) * s`. -/
def lerp (a b s : ℝ) : ℝ := a + (b - a) * s

/-- One camera's step of the smoothed branch of `zoom_control`
(src/controls.rs lines 126-137): multiply the target accumulator by this
frame's raw factor, apply `lerp(1, target, 1 - smoothness)` as the actual
factor, and divide the target back down by it.  Returns the new target and
the factor handed to `OrbitCamera::zoom`. -/
def zoomControlStep (smoothness zoomFactor target : ℝ) : ℝ × ℝ :=
  let t := target * zoomFactor
  let f := lerp 1 t (1 - smoothness)
  (t / f, f)

/-- Target-zoom accumulator after `n` frames of the same raw factor,
starting from `TargetZoom(1.0)` (src/controls.rs line 98). -/
def zoomTargetIter (s g : ℝ) : ℕ → ℝ
  | 0 => 1
  | n + 1 => (zoomControlStep s g (zoomTargetIter s g n)).1

/-- The factor actually applied at frame `n + 1`. -/
def zoomAppliedAt (s g : ℝ) (n : ℕ) : ℝ := (zoomControlStep s g (zoomTargetIter s g n)).2

/-- Cumulative product of the applied factors over the first `n` frames. -/
def zoomCumApplied (s g : ℝ) : ℕ → ℝ
  | 0 => 1
  | n + 1 => zoomCumApplied s g n * zoomAppliedAt s g n

/-! Basic lemmas about the embedded math operations. -/

theorem quatMul_one_left (q : Quat) : quatMul quatOne q = q := by
  simp [quatMul, quatOne]

theorem rotateVec_zero (q : Quat) : rotateVec q ⟨0, 0, 0⟩ = ⟨0, 0, 0⟩ := by
  simp [rotateVec]

theorem vec3_add_zero (v : Vec3) : v + ⟨0, 0, 0⟩ = v := by
  ext <;> simp

theorem fromAxisAngle_zero (axis : Vec3) : fromAxisAngle axis 0 = quatOne := by
  simp [fromAxisAngle, quatOne]

/-! Claim theorems. -/

/-- C1: one resolve call first moves the focus by the pending pan rotated
by the pre-update orientation, then, after updating the orientation, sets
the position to the new focus plus the new orientation applied to
`(0, 0, d)`, where `d` is the radius for a perspective projection and
`(far + near) / 2` for an orthographic one; the orthographic branch also
writes the state's radius into the projection's scale field. -/
theorem claim_C1_resolve_focus_and_position (cam : OrbitCamera) (t : Transform) :
    (∀ proj, (updateTransform cam t proj).1.focus
        = cam.focus + rotateVec t.rotation ⟨cam.pan.x, cam.pan.y, 0⟩)
  ∧ (∀ pp : PerspectiveProjection,
      (updateTransform cam t (.perspective pp)).2.1.translation
        = (updateTransform cam t (.perspective pp)).1.focus
            + rotateVec (updateTransform cam t (.perspective pp)).2.1.rotation
                ⟨0, 0, cam.radius⟩
      ∧ (updateTransform cam t (.perspective pp)).2.2 = .perspective pp)
  ∧ (∀ op : OrthographicProjection,
      (updateTransform cam t (.orthographic op)).2.1.translation
        = (updateTransform cam t (.orthographic op)).1.focus
            + rotateVec (updateTransform cam t (.orthographic op)).2.1.rotation
                ⟨0, 0, (op.far + op.near) / 2⟩
      ∧ (updateTransform cam t (.orthographic op)).2.2
          = .orthographic { op with scale := cam.radius }) := by
  refine ⟨fun proj => ?_, fun pp => ⟨rfl, rfl⟩, fun op => ⟨rfl, rfl⟩⟩
  cases proj <;> rfl

/-- C2: immediately after a resolve call all four pending-delta fields of
the camera state are exactly zero. -/
theorem claim_C2_deltas_reset (cam : OrbitCamera) (t : Transform) (proj : Projection) :
    (updateTransform cam t proj).1.delta_yaw = 0
  ∧ (updateTransform cam t proj).1.delta_pitch = 0
  ∧ (updateTransform cam t proj).1.delta_roll = 0
  ∧ (updateTransform cam t proj).1.pan = ⟨0, 0⟩ := by
  cases proj <;> exact ⟨rfl, rfl, rfl, rfl⟩

/-- C8: the pan-scale helper returns
`radius * fov * (aspect_ratio, 1) / viewport` for a perspective projection,
`(area_width, area_height) / viewport` for an orthographic one, and `none`
exactly when the viewport pixel size is unavailable. -/
theorem claim_C8_pan_scaling (cam : OrbitCamera) :
    (∀ (v : Vec2) (pp : PerspectiveProjection),
        calculate_pan_scaling_factor (some v) (.perspective pp) cam
          = some ⟨cam.radius * pp.fov * pp.aspect_ratio / v.x,
                  cam.radius * pp.fov * 1 / v.y⟩)
  ∧ (∀ (v : Vec2) (op : OrthographicProjection),
        calculate_pan_scaling_factor (some v) (.orthographic op) cam
          = some ⟨op.area_width / v.x, op.area_height / v.y⟩)
  ∧ (∀ proj, calculate_pan_scaling_factor none proj cam = none) :=
  ⟨fun _ _ => rfl, fun _ _ => rfl, fun _ => rfl⟩

/-- C10: a resolve call changes only the focus and the four pending-delta
fields of the camera state; radius, radius_limit and lock_up_axis are left
unchanged. -/
theorem claim_C10_resolver_frame (cam : OrbitCamera) (t : Transform) (proj : Projection) :
    (updateTransform cam t proj).1
      = { cam with focus := (updateTransform cam t proj).1.focus,
                   delta_yaw := 0, delta_pitch := 0, delta_roll := 0, pan := ⟨0, 0⟩ }
  ∧ (updateTransform cam t proj).1.radius = cam.radius
  ∧ (updateTransform cam t proj).1.radius_limit = cam.radius_limit
  ∧ (updateTransform cam t proj).1.lock_up_axis = cam.lock_up_axis := by
  cases proj <;> exact ⟨rfl, rfl, rfl, rfl⟩

theorem zoom_radius_limit (cam : OrbitCamera) (f : ℝ) :
    (zoom cam f).radius_limit = cam.radius_limit := rfl

theorem zoom_radius_mem (cam : OrbitCamera) (f l u : ℝ)
    (hlim : cam.radius_limit = (some l, some u)) (h : l ≤ u) :
    l ≤ (zoom cam f).radius ∧ (zoom cam f).radius ≤ u := by
  have hr : (zoom cam f).radius = min (max (cam.radius * f) l) u := by
    simp [zoom, hlim]
  rw [hr]
  exact ⟨le_min (le_max_right _ _) h, min_le_right _ _⟩

theorem zoomSeq_radius_mem (l u : ℝ) (h : l ≤ u) :
    ∀ (fs : List ℝ) (cam : OrbitCamera), cam.radius_limit = (some l, some u) → fs ≠ [] →
      l ≤ (zoomSeq cam fs).radius ∧ (zoomSeq cam fs).radius ≤ u := by
  intro fs
  induction fs with
  | nil => intro cam _ hne; exact absurd rfl hne
  | cons f fs ih =>
    intro cam hlim _
    cases fs with
    | nil => simpa [zoomSeq] using zoom_radius_mem cam f l u hlim h
    | cons g gs =>
      have hlim1 : (zoom cam f).radius_limit = (some l, some u) := by
        rw [zoom_radius_limit]; exact hlim
      have := ih (zoom cam f) hlim1 (by simp)
      simpa [zoomSeq] using this

/-- C3: zoom multiplies the radius by the factor and then clamps, lower
bound first and upper bound second, each bound only when it is set; with
both bounds set and `lower ≤ upper`, the radius after every zoom call of
any sequence lies in `[lower, upper]`, and an unset bound imposes no limit
on its side. -/
theorem claim_C3_zoom_clamp (lower upper : ℝ) (h : lower ≤ upper) :
    (∀ (cam : OrbitCamera) (f l u : ℝ), cam.radius_limit = (some l, some u) →
        (zoom cam f).radius = min (max (cam.radius * f) l) u)
  ∧ (∀ (cam : OrbitCamera) (f u : ℝ), cam.radius_limit = (none, some u) →
        (zoom cam f).radius = min (cam.radius * f) u)
  ∧ (∀ (cam : OrbitCamera) (f l : ℝ), cam.radius_limit = (some l, none) →
        (zoom cam f).radius = max (cam.radius * f) l)
  ∧ (∀ (cam : OrbitCamera) (f : ℝ), cam.radius_limit = (none, none) →
        (zoom cam f).radius = cam.radius * f)
  ∧ (∀ (cam : OrbitCamera) (fs : List ℝ), cam.radius_limit = (some lower, some upper) →
        fs ≠ [] → lower ≤ (zoomSeq cam fs).radius ∧ (zoomSeq cam fs).radius ≤ upper) := by
  refine ⟨?_, ?_, ?_, ?_, ?_⟩
  · intro cam f l u hlim; simp [zoom, hlim]
  · intro cam f u hlim; simp [zoom, hlim]
  · intro cam f l hlim; simp [zoom, hlim]
  · intro cam f hlim; simp [zoom, hlim]
  · intro cam fs hlim hne; exact zoomSeq_radius_mem lower upper h fs cam hlim hne

/-- Concrete camera for witnesses: radius 6, limits [2, 10], no pending
deltas, lock off. -/
def cam3 : OrbitCamera := ⟨⟨0, 0, 0⟩, 6, 0, 0, 0, ⟨0, 0⟩, (some 2, some 10), false⟩

/-- C3 witness: lower = 2 ≤ upper = 10, start radius 6, zoom factors 1/10
and 50 each land inside [2, 10]. -/
theorem claim_C3_zoom_clamp_witness :
    (2 : ℝ) ≤ 10
  ∧ (2 ≤ (zoomSeq cam3 [1 / 10]).radius ∧ (zoomSeq cam3 [1 / 10]).radius ≤ 10)
  ∧ (2 ≤ (zoomSeq cam3 [50]).radius ∧ (zoomSeq cam3 [50]).radius ≤ 10) := by
  have h := claim_C3_zoom_clamp 2 10 (by norm_num)
  exact ⟨by norm_num, h.2.2.2.2 cam3 [1 / 10] rfl (by simp), h.2.2.2.2 cam3 [50] rfl (by simp)⟩

/-- C4: under the up-axis lock, any sequence of resolves (with arbitrary
pending pitches) produces orientations whose YXZ-decomposed pitch stays in
`[-pi/2, pi/2]`. -/
theorem claim_C4_pitch_clamped (t0 : Transform) (steps : List (OrbitCamera × Projection))
    (hlock : ∀ s ∈ steps, s.1.lock_up_axis = true) (hne : steps ≠ []) :
    -(Real.pi / 2)
        ≤ (toEulerYXZ ((steps.foldl (fun tr s => (updateTransform s.1 tr s.2).2.1) t0).rotation)).2.1
  ∧ (toEulerYXZ ((steps.foldl (fun tr s => (updateTransform s.1 tr s.2).2.1) t0).rotation)).2.1
        ≤ Real.pi / 2 := by
  constructor
  · show -(Real.pi / 2) ≤ Real.arcsin (sineThetaYXZ _)
    exact Real.neg_pi_div_two_le_arcsin _
  · show Real.arcsin (sineThetaYXZ _) ≤ Real.pi / 2
    exact Real.arcsin_le_pi_div_two _

/-- Concrete identity transform for witnesses. -/
def t0ex : Transform := ⟨⟨0, 0, 0⟩, quatOne⟩

/-- Concrete perspective projection for witnesses. -/
def pp0 : PerspectiveProjection := ⟨1, 1, 1 / 10, 100⟩

/-- Concrete locked camera with pending pitch pi for witnesses. -/
def camLock : OrbitCamera := ⟨⟨0, 0, 0⟩, 6, 0, Real.pi, 0, ⟨0, 0⟩, (none, none), true⟩

/-- C4 witness: one resolve of a locked camera with pending pitch pi keeps
the decomposed pitch inside `[-pi/2, pi/2]`. -/
theorem claim_C4_pitch_clamped_witness :
    (∀ s ∈ [(camLock, Projection.perspective pp0)], s.1.lock_up_axis = true)
  ∧ ([(camLock, Projection.perspective pp0)] ≠ [])
  ∧ (-(Real.pi / 2)
        ≤ (toEulerYXZ (([(camLock, Projection.perspective pp0)].foldl
              (fun tr s => (updateTransform s.1 tr s.2).2.1) t0ex).rotation)).2.1
      ∧ (toEulerYXZ (([(camLock, Projection.perspective pp0)].foldl
              (fun tr s => (updateTransform s.1 tr s.2).2.1) t0ex).rotation)).2.1
          ≤ Real.pi / 2) := by
  have hl : ∀ s ∈ [(camLock, Projection.perspective pp0)], s.1.lock_up_axis = true := by
    intro s hs
    rw [List.mem_singleton] at hs
    subst hs
    rfl
  exact ⟨hl, by simp, claim_C4_pitch_clamped t0ex _ hl (by simp)⟩

/-- C6: with the up-axis lock off, a resolve updates the orientation by
exactly three successive axis-angle rotations: about the current local X
axis by minus the pending pitch, then about the newly rotated local Y axis
by the pending yaw, then about the newly rotated local Z axis by the
pending roll, each sub-step using the axis produced by the previous one. -/
theorem claim_C6_free_mode_rotation (cam : OrbitCamera) (t : Transform) (proj : Projection)
    (hlock : cam.lock_up_axis = false) :
    (updateTransform cam t proj).2.1.rotation =
      (let r1 := quatMul (fromAxisAngle (rotateVec t.rotation ⟨1, 0, 0⟩) (-cam.delta_pitch))
                   t.rotation
       let r2 := quatMul (fromAxisAngle (rotateVec r1 ⟨0, 1, 0⟩) cam.delta_yaw) r1
       quatMul (fromAxisAngle (rotateVec r2 ⟨0, 0, 1⟩) cam.delta_roll) r2) := by
  cases proj <;> simp [updateTransform, hlock]

/-- C6 witness: the free-mode rotation decomposition at a concrete camera,
transform and projection. -/
theorem claim_C6_free_mode_rotation_witness :
    cam3.lock_up_axis = false
  ∧ (updateTransform cam3 t0ex (.perspective pp0)).2.1.rotation =
      (let r1 := quatMul (fromAxisAngle (rotateVec t0ex.rotation ⟨1, 0, 0⟩) (-cam3.delta_pitch))
                   t0ex.rotation
       let r2 := quatMul (fromAxisAngle (rotateVec r1 ⟨0, 1, 0⟩) cam3.delta_yaw) r1
       quatMul (fromAxisAngle (rotateVec r2 ⟨0, 0, 1⟩) cam3.delta_roll) r2) :=
  ⟨rfl, claim_C6_free_mode_rotation cam3 t0ex (.perspective pp0) rfl⟩

/-- C7: with the up-axis lock on, the resolver recomposes the orientation
from the decomposed yaw and clamped pitch together with roll
`0.6 * (old_roll mod 2 pi)`, and the pending roll has no influence on the
resolver's output at all. -/
theorem claim_C7_lock_roll_damped (cam : OrbitCamera) (t : Transform) (proj : Projection)
    (hlock : cam.lock_up_axis = true) :
    ((updateTransform cam t proj).2.1.rotation
        = fromEulerYXZ ((toEulerYXZ t.rotation).1 + cam.delta_yaw)
            (clampR ((toEulerYXZ t.rotation).2.1 - cam.delta_pitch)
              (-(Real.pi / 2)) (Real.pi / 2))
            (0.6 * rustRem (toEulerYXZ t.rotation).2.2 (2 * Real.pi)))
  ∧ ∀ r : ℝ, updateTransform { cam with delta_roll := r } t proj = updateTransform cam t proj := by
  cases proj <;> refine ⟨?_, fun r => ?_⟩ <;> simp [updateTransform, hlock]

/-- C7 witness: the locked-mode recomposition at a concrete camera,
transform and projection. -/
theorem claim_C7_lock_roll_damped_witness :
    camLock.lock_up_axis = true
  ∧ ((updateTransform camLock t0ex (.perspective pp0)).2.1.rotation
        = fromEulerYXZ ((toEulerYXZ t0ex.rotation).1 + camLock.delta_yaw)
            (clampR ((toEulerYXZ t0ex.rotation).2.1 - camLock.delta_pitch)
              (-(Real.pi / 2)) (Real.pi / 2))
            (0.6 * rustRem (toEulerYXZ t0ex.rotation).2.2 (2 * Real.pi)))
  ∧ ∀ r : ℝ, updateTransform { camLock with delta_roll := r } t0ex (.perspective pp0)
        = updateTransform camLock t0ex (.perspective pp0) := by
  have h := claim_C7_lock_roll_damped camLock t0ex (.perspective pp0) rfl
  exact ⟨rfl, h.1, h.2⟩

/-- C5 (amended): with all pending deltas zero and the up-axis lock off, a
resolve leaves the orientation unchanged; it leaves the position unchanged
provided the position was already consistent (equal to focus plus the
orientation applied to `(0, 0, d)`); for an orthographic projection the
scale is set to the radius. -/
theorem claim_C5_no_input_amended (cam : OrbitCamera) (t : Transform) (proj : Projection)
    (hy : cam.delta_yaw = 0) (hp : cam.delta_pitch = 0) (hr : cam.delta_roll = 0)
    (hpan : cam.pan = ⟨0, 0⟩) (hlock : cam.lock_up_axis = false) :
    (updateTransform cam t proj).2.1.rotation = t.rotation
  ∧ (∀ pp : PerspectiveProjection, proj = .perspective pp →
      t.translation = cam.focus + rotateVec t.rotation ⟨0, 0, cam.radius⟩ →
      (updateTransform cam t proj).2.1.translation = t.translation)
  ∧ (∀ op : OrthographicProjection, proj = .orthographic op →
      ((updateTransform cam t proj).2.2 = .orthographic { op with scale := cam.radius }
       ∧ (t.translation = cam.focus + rotateVec t.rotation ⟨0, 0, (op.far + op.near) / 2⟩ →
          (updateTransform cam t proj).2.1.translation = t.translation))) := by
  refine ⟨?_, ?_, ?_⟩
  · cases proj <;>
      simp [updateTransform, hlock, hy, hp, hr, fromAxisAngle_zero, quatMul_one_left]
  · intro pp hproj htr
    subst hproj
    have hred : (updateTransform cam t (.perspective pp)).2.1.translation
        = cam.focus + rotateVec t.rotation ⟨0, 0, cam.radius⟩ := by
      simp [updateTransform, hlock, hy, hp, hr, hpan, rotateVec_zero, vec3_add_zero,
        fromAxisAngle_zero, quatMul_one_left]
    rw [hred, ← htr]
  · intro op hproj
    subst hproj
    refine ⟨rfl, fun htr => ?_⟩
    have hred : (updateTransform cam t (.orthographic op)).2.1.translation
        = cam.focus + rotateVec t.rotation ⟨0, 0, (op.far + op.near) / 2⟩ := by
      simp [updateTransform, hlock, hy, hp, hr, hpan, rotateVec_zero, vec3_add_zero,
        fromAxisAngle_zero, quatMul_one_left]
    rw [hred, ← htr]

/-- Concrete camera with no pending input for C5. -/
def camZero : OrbitCamera := ⟨⟨0, 0, 0⟩, 1, 0, 0, 0, ⟨0, 0⟩, (none, none), false⟩

/-- Concrete transform whose position is consistent with `camZero`. -/
def tGood : Transform := ⟨⟨0, 0, 1⟩, quatOne⟩

/-- C5 witness: at a concrete no-input camera with consistent transform,
the resolve keeps both orientation and position. -/
theorem claim_C5_no_input_amended_witness :
    (camZero.delta_yaw = 0 ∧ camZero.delta_pitch = 0 ∧ camZero.delta_roll = 0
      ∧ camZero.pan = ⟨0, 0⟩ ∧ camZero.lock_up_axis = false)
  ∧ (updateTransform camZero tGood (.perspective pp0)).2.1.rotation = tGood.rotation
  ∧ (updateTransform camZero tGood (.perspective pp0)).2.1.translation = tGood.translation := by
  have h := claim_C5_no_input_amended camZero tGood (.perspective pp0) rfl rfl rfl rfl rfl
  refine ⟨⟨rfl, rfl, rfl, rfl, rfl⟩, h.1, h.2.1 pp0 rfl ?_⟩
  apply Vec3.ext <;> norm_num [tGood, camZero, rotateVec, quatOne]

/-- Concrete inconsistent transform: position (1,0,0) but focus at the
origin with radius 1 and identity orientation. -/
def tBad : Transform := ⟨⟨1, 0, 0⟩, quatOne⟩

/-- Quaternion for a pure roll of pi. -/
def qRoll : Quat := ⟨0, 0, 1, 0⟩

/-- Concrete locked camera with no pending input. -/
def camRollLock : OrbitCamera := ⟨⟨0, 0, 0⟩, 1, 0, 0, 0, ⟨0, 0⟩, (none, none), true⟩

/-- Concrete transform carrying a roll of pi. -/
def tRoll : Transform := ⟨⟨0, 0, 0⟩, qRoll⟩

theorem sineTheta_qRoll : sineThetaYXZ qRoll = 0 := by
  norm_num [sineThetaYXZ, qRoll, clampR]

theorem second_qRoll : secondYXZ qRoll = 0 := by
  rw [secondYXZ, sineTheta_qRoll, Real.arcsin_zero]

theorem first_qRoll : firstYXZ qRoll = 0 := by
  rw [firstYXZ, sineTheta_qRoll]
  norm_num [qRoll, arctan2, Real.arctan_zero]

theorem third_qRoll : thirdYXZ qRoll = Real.pi := by
  rw [thirdYXZ, sineTheta_qRoll]
  have h1 : arctan2 (2 * ((0:ℝ) * 0 + 0 * 1)) ((0:ℝ) * 0 - 0 * 0 + 0 * 0 - 1 * 1) = Real.pi := by
    norm_num [arctan2, Real.arctan_zero]
  norm_num [qRoll, arctan2, Real.arctan_zero]

theorem rustRem_pi_two_pi : rustRem Real.pi (2 * Real.pi) = Real.pi := by
  have h2 : (2 : ℝ) * Real.pi ≠ 0 := by positivity
  have hdiv : Real.pi / (2 * Real.pi) = 1 / 2 := by
    rw [div_eq_iff h2]; ring
  have htr : truncR (Real.pi / (2 * Real.pi)) = 0 := by
    rw [hdiv, truncR, if_pos (by norm_num)]
    rw [Int.floor_eq_zero_iff]
    constructor <;> norm_num
  simp [rustRem, htr]

theorem clampR_zero_pitch : clampR 0 (-(Real.pi / 2)) (Real.pi / 2) = 0 := by
  have hp2 : (0 : ℝ) ≤ Real.pi / 2 := by positivity
  rw [clampR, max_eq_left (by linarith), min_eq_left hp2]

theorem fromEulerYXZ_roll_only (c : ℝ) :
    fromEulerYXZ 0 0 c = ⟨0, 0, Real.sin (c / 2), Real.cos (c / 2)⟩ := by
  apply Quat.ext <;> simp [fromEulerYXZ, fromRotY, fromRotX, fromRotZ, quatMul]

theorem noInput_translation_perspective (cam : OrbitCamera) (t : Transform)
    (pp : PerspectiveProjection) (hy : cam.delta_yaw = 0) (hp : cam.delta_pitch = 0)
    (hr : cam.delta_roll = 0) (hpan : cam.pan = ⟨0, 0⟩) (hlock : cam.lock_up_axis = false) :
    (updateTransform cam t (.perspective pp)).2.1.translation
      = cam.focus + rotateVec t.rotation ⟨0, 0, cam.radius⟩ := by
  simp [updateTransform, hlock, hy, hp, hr, hpan, rotateVec_zero, vec3_add_zero,
    fromAxisAngle_zero, quatMul_one_left]

theorem lock_rotation_eq (cam : OrbitCamera) (t : Transform) (proj : Projection)
    (hlock : cam.lock_up_axis = true) :
    (updateTransform cam t proj).2.1.rotation
      = fromEulerYXZ ((toEulerYXZ t.rotation).1 + cam.delta_yaw)
          (clampR ((toEulerYXZ t.rotation).2.1 - cam.delta_pitch)
            (-(Real.pi / 2)) (Real.pi / 2))
          (0.6 * rustRem (toEulerYXZ t.rotation).2.2 (2 * Real.pi)) := by
  cases proj <;> simp [updateTransform, hlock]

/-- C5 counterexample: the claim as stated fails on the code.  With all
pending deltas zero, a resolve still moves an inconsistent position
(camZero with transform at (1,0,0) ends at (0,0,1)); and with the up-axis
lock on, a resolve changes an orientation carrying roll (roll pi is damped
to 0.6 pi). -/
theorem claim_C5_counterexample :
    (camZero.delta_yaw = 0 ∧ camZero.delta_pitch = 0 ∧ camZero.delta_roll = 0
      ∧ camZero.pan = ⟨0, 0⟩)
  ∧ (updateTransform camZero tBad (.perspective pp0)).2.1.translation ≠ tBad.translation
  ∧ (camRollLock.delta_yaw = 0 ∧ camRollLock.delta_pitch = 0 ∧ camRollLock.delta_roll = 0
      ∧ camRollLock.pan = ⟨0, 0⟩)
  ∧ (updateTransform camRollLock tRoll (.perspective pp0)).2.1.rotation ≠ tRoll.rotation := by
  refine ⟨⟨rfl, rfl, rfl, rfl⟩, ?_, ⟨rfl, rfl, rfl, rfl⟩, ?_⟩
  · rw [noInput_translation_perspective camZero tBad pp0 rfl rfl rfl rfl rfl]
    intro h
    have hx := congrArg Vec3.x h
    norm_num [camZero, tBad, rotateVec, quatOne] at hx
  · have he : toEulerYXZ tRoll.rotation = (0, 0, Real.pi) := by
      show toEulerYXZ qRoll = (0, 0, Real.pi)
      rw [toEulerYXZ, first_qRoll, second_qRoll, third_qRoll]
    have hrot := lock_rotation_eq camRollLock tRoll (.perspective pp0) rfl
    rw [he] at hrot
    have hy0 : camRollLock.delta_yaw = 0 := rfl
    have hp0 : camRollLock.delta_pitch = 0 := rfl
    rw [hy0, hp0] at hrot
    norm_num [clampR_zero_pitch, rustRem_pi_two_pi] at hrot
    rw [hrot, fromEulerYXZ_roll_only]
    intro h
    have hw : Real.cos (3 / 5 * Real.pi / 2) = 0 := by
      have hww := congrArg Quat.w h
      simpa [tRoll, qRoll] using hww
    have hcos : 0 < Real.cos (3 / 5 * Real.pi / 2) := by
      apply Real.cos_pos_of_mem_Ioo
      constructor
      · nlinarith [Real.pi_pos]
      · nlinarith [Real.pi_pos]
    rw [hw] at hcos
    exact lt_irrefl 0 hcos

/-! Lemmas for the smoothed-zoom recurrence of `zoom_control`. -/

theorem zoomStep_bound_ge (s g t : ℝ) (hs0 : 0 ≤ s) (hs1 : s < 1) (hg : 1 ≤ g)
    (h1 : 1 ≤ t) (h2 : (1 - s) * (t * g - 1) ≤ g - 1) :
    1 ≤ t * g / (1 + (t * g - 1) * (1 - s))
  ∧ (1 - s) * (t * g / (1 + (t * g - 1) * (1 - s)) * g - 1) ≤ g - 1 := by
  have hx : 1 ≤ t * g := by nlinarith
  have ha0 : 0 < 1 + (t * g - 1) * (1 - s) := by nlinarith
  constructor
  · rw [le_div_iff ha0]
    nlinarith
  · rw [div_mul_eq_mul_div, div_sub_one (ne_of_gt ha0), ← mul_div_assoc, div_le_iff ha0]
    nlinarith [mul_nonneg hs0 (sub_nonneg.mpr h2)]

theorem zoomStep_bound_le (s g t : ℝ) (hs0 : 0 ≤ s) (hs1 : s < 1) (hg0 : 0 < g) (hg : g ≤ 1)
    (h0 : 0 < t) (h1 : t ≤ 1) (h2 : g - 1 ≤ (1 - s) * (t * g - 1)) :
    0 < t * g / (1 + (t * g - 1) * (1 - s))
  ∧ t * g / (1 + (t * g - 1) * (1 - s)) ≤ 1
  ∧ g - 1 ≤ (1 - s) * (t * g / (1 + (t * g - 1) * (1 - s)) * g - 1) := by
  have hx0 : 0 < t * g := mul_pos h0 hg0
  have hx1 : t * g ≤ 1 := by nlinarith
  have ha0 : 0 < 1 + (t * g - 1) * (1 - s) := by nlinarith
  refine ⟨div_pos hx0 ha0, ?_, ?_⟩
  · rw [div_le_one ha0]
    nlinarith
  · rw [div_mul_eq_mul_div, div_sub_one (ne_of_gt ha0), ← mul_div_assoc, le_div_iff ha0]
    nlinarith [mul_nonneg hs0 (sub_nonneg.mpr h2)]

theorem zoomInv_ge (s g : ℝ) (hs0 : 0 ≤ s) (hs1 : s < 1) (hg : 1 ≤ g) :
    ∀ n, 1 ≤ zoomTargetIter s g n
      ∧ (1 - s) * (zoomTargetIter s g n * g - 1) ≤ g - 1 := by
  intro n
  induction n with
  | zero =>
    refine ⟨le_refl 1, ?_⟩
    show (1 - s) * ((1 : ℝ) * g - 1) ≤ g - 1
    nlinarith
  | succ n ih =>
    have hstep : zoomTargetIter s g (n + 1)
        = zoomTargetIter s g n * g
            / (1 + (zoomTargetIter s g n * g - 1) * (1 - s)) := rfl
    rw [hstep]
    exact zoomStep_bound_ge s g (zoomTargetIter s g n) hs0 hs1 hg ih.1 ih.2

theorem zoomInv_le (s g : ℝ) (hs0 : 0 ≤ s) (hs1 : s < 1) (hg0 : 0 < g) (hg : g ≤ 1) :
    ∀ n, 0 < zoomTargetIter s g n ∧ zoomTargetIter s g n ≤ 1
      ∧ g - 1 ≤ (1 - s) * (zoomTargetIter s g n * g - 1) := by
  intro n
  induction n with
  | zero =>
    refine ⟨one_pos, le_refl 1, ?_⟩
    show g - 1 ≤ (1 - s) * ((1 : ℝ) * g - 1)
    nlinarith
  | succ n ih =>
    have hstep : zoomTargetIter s g (n + 1)
        = zoomTargetIter s g n * g
            / (1 + (zoomTargetIter s g n * g - 1) * (1 - s)) := rfl
    rw [hstep]
    exact zoomStep_bound_le s g (zoomTargetIter s g n) hs0 hs1 hg0 hg ih.1 ih.2.1 ih.2.2

theorem zoomApplied_formula (s g : ℝ) (n : ℕ) :
    zoomAppliedAt s g n = 1 + (zoomTargetIter s g n * g - 1) * (1 - s) := rfl

theorem zoomTarget_mono_ge (s g : ℝ) (hs0 : 0 ≤ s) (hs1 : s < 1) (hg : 1 ≤ g) (n : ℕ) :
    zoomTargetIter s g n ≤ zoomTargetIter s g (n + 1) := by
  obtain ⟨h1, h2⟩ := zoomInv_ge s g hs0 hs1 hg n
  have hx : 1 ≤ zoomTargetIter s g n * g := by nlinarith
  have ha0 : 0 < 1 + (zoomTargetIter s g n * g - 1) * (1 - s) := by
    nlinarith [mul_nonneg (by linarith : (0 : ℝ) ≤ zoomTargetIter s g n * g - 1)
      (by linarith : (0 : ℝ) ≤ 1 - s)]
  have hstep : zoomTargetIter s g (n + 1)
      = zoomTargetIter s g n * g
          / (1 + (zoomTargetIter s g n * g - 1) * (1 - s)) := rfl
  rw [hstep, le_div_iff ha0]
  nlinarith [mul_nonneg (by linarith : (0 : ℝ) ≤ zoomTargetIter s g n)
    (by nlinarith : (0 : ℝ) ≤ g - (1 + (zoomTargetIter s g n * g - 1) * (1 - s)))]

theorem zoomTarget_mono_le (s g : ℝ) (hs0 : 0 ≤ s) (hs1 : s < 1) (hg0 : 0 < g) (hg : g ≤ 1)
    (n : ℕ) : zoomTargetIter s g (n + 1) ≤ zoomTargetIter s g n := by
  obtain ⟨h0, h1, h2⟩ := zoomInv_le s g hs0 hs1 hg0 hg n
  have ha0 : 0 < 1 + (zoomTargetIter s g n * g - 1) * (1 - s) := by nlinarith
  have hstep : zoomTargetIter s g (n + 1)
      = zoomTargetIter s g n * g
          / (1 + (zoomTargetIter s g n * g - 1) * (1 - s)) := rfl
  rw [hstep, div_le_iff ha0]
  nlinarith [mul_nonneg (le_of_lt h0)
    (by nlinarith : (0 : ℝ) ≤ (1 + (zoomTargetIter s g n * g - 1) * (1 - s)) - g)]

theorem zoomProd_ge (s g : ℝ) (hs0 : 0 ≤ s) (hs1 : s < 1) (hg : 1 ≤ g) :
    ∀ n, 0 < zoomCumApplied s g n
      ∧ zoomCumApplied s g n * zoomTargetIter s g n = g ^ n := by
  intro n
  induction n with
  | zero => exact ⟨one_pos, by simp [zoomCumApplied, zoomTargetIter]⟩
  | succ n ih =>
    obtain ⟨h1, h2⟩ := zoomInv_ge s g hs0 hs1 hg n
    have hx : 1 ≤ zoomTargetIter s g n * g := by nlinarith
    have ha0 : 0 < 1 + (zoomTargetIter s g n * g - 1) * (1 - s) := by
      nlinarith [mul_nonneg (by linarith : (0 : ℝ) ≤ zoomTargetIter s g n * g - 1)
        (by linarith : (0 : ℝ) ≤ 1 - s)]
    have hstep : zoomTargetIter s g (n + 1)
        = zoomTargetIter s g n * g
            / (1 + (zoomTargetIter s g n * g - 1) * (1 - s)) := rfl
    have hcum : zoomCumApplied s g (n + 1)
        = zoomCumApplied s g n * (1 + (zoomTargetIter s g n * g - 1) * (1 - s)) := rfl
    constructor
    · rw [hcum]
      exact mul_pos ih.1 ha0
    · rw [hcum, hstep]
      field_simp
      linear_combination (1 + (zoomTargetIter s g n * g - 1) * (1 - s)) * g * ih.2

theorem zoomProd_le (s g : ℝ) (hs0 : 0 ≤ s) (hs1 : s < 1) (hg0 : 0 < g) (hg : g ≤ 1) :
    ∀ n, 0 < zoomCumApplied s g n
      ∧ zoomCumApplied s g n * zoomTargetIter s g n = g ^ n := by
  intro n
  induction n with
  | zero => exact ⟨one_pos, by simp [zoomCumApplied, zoomTargetIter]⟩
  | succ n ih =>
    obtain ⟨h0, h1, h2⟩ := zoomInv_le s g hs0 hs1 hg0 hg n
    have ha0 : 0 < 1 + (zoomTargetIter s g n * g - 1) * (1 - s) := by nlinarith
    have hstep : zoomTargetIter s g (n + 1)
        = zoomTargetIter s g n * g
            / (1 + (zoomTargetIter s g n * g - 1) * (1 - s)) := rfl
    have hcum : zoomCumApplied s g (n + 1)
        = zoomCumApplied s g n * (1 + (zoomTargetIter s g n * g - 1) * (1 - s)) := rfl
    constructor
    · rw [hcum]
      exact mul_pos ih.1 ha0
    · rw [hcum, hstep]
      field_simp
      linear_combination (1 + (zoomTargetIter s g n * g - 1) * (1 - s)) * g * ih.2

/-- C9 counterexample: with smoothness 3/4 and a fixed per-frame raw factor
2, the cumulative factor actually applied is 5/4 after one frame and 31/16
after two, while the cumulative unsmoothed targets are 2 and 4: the
distance to the target grows from 3/4 to 33/16, so the cumulative applied
factor does not monotonically approach the cumulative target. -/
theorem claim_C9_counterexample :
    zoomCumApplied (3 / 4) 2 1 = 5 / 4
  ∧ zoomCumApplied (3 / 4) 2 2 = 31 / 16
  ∧ (2 : ℝ) ^ 1 - zoomCumApplied (3 / 4) 2 1
      < (2 : ℝ) ^ 2 - zoomCumApplied (3 / 4) 2 2 := by
  have h1 : zoomCumApplied (3 / 4) 2 1 = 5 / 4 := by
    norm_num [zoomCumApplied, zoomAppliedAt, zoomTargetIter, zoomControlStep, lerp]
  have h2 : zoomCumApplied (3 / 4) 2 2 = 31 / 16 := by
    norm_num [zoomCumApplied, zoomAppliedAt, zoomTargetIter, zoomControlStep, lerp]
  refine ⟨h1, h2, ?_⟩
  rw [h1, h2]
  norm_num

/-- C9 (amended): per frame the applied factor equals
`lerp(1, target, 1 - smoothness)` and the target accumulator is divided by
the applied factor; for a fixed per-frame raw factor `g` the per-frame
applied factor is monotone toward `g` and never overshoots it
(nondecreasing and at most `g` when `g ≥ 1`, nonincreasing and at least
`g` when `0 < g ≤ 1`), and the cumulative applied factor never overshoots
the cumulative unsmoothed target `g ^ n` on either side. -/
theorem claim_C9_zoom_smoothing_amended (s g : ℝ) (hs0 : 0 ≤ s) (hs1 : s < 1) (n : ℕ) :
    ((zoomControlStep s g (zoomTargetIter s g n)).2
        = lerp 1 (zoomTargetIter s g n * g) (1 - s)
      ∧ zoomTargetIter s g (n + 1)
        = zoomTargetIter s g n * g / (zoomControlStep s g (zoomTargetIter s g n)).2)
  ∧ (1 ≤ g →
      zoomAppliedAt s g n ≤ zoomAppliedAt s g (n + 1)
      ∧ zoomAppliedAt s g n ≤ g
      ∧ zoomCumApplied s g n ≤ g ^ n)
  ∧ (0 < g → g ≤ 1 →
      zoomAppliedAt s g (n + 1) ≤ zoomAppliedAt s g n
      ∧ g ≤ zoomAppliedAt s g n
      ∧ g ^ n ≤ zoomCumApplied s g n) := by
  refine ⟨⟨rfl, rfl⟩, fun hg => ?_, fun hg0 hg => ?_⟩
  · obtain ⟨h1, h2⟩ := zoomInv_ge s g hs0 hs1 hg n
    have hmono := zoomTarget_mono_ge s g hs0 hs1 hg n
    obtain ⟨hA, hprod⟩ := zoomProd_ge s g hs0 hs1 hg n
    refine ⟨?_, ?_, ?_⟩
    · rw [zoomApplied_formula, zoomApplied_formula]
      nlinarith [mul_nonneg (mul_nonneg (by linarith : (0 : ℝ) ≤ 1 - s)
        (by linarith : (0 : ℝ) ≤ g)) (sub_nonneg.mpr hmono)]
    · rw [zoomApplied_formula]
      nlinarith
    · nlinarith
  · obtain ⟨h0, h1, h2⟩ := zoomInv_le s g hs0 hs1 hg0 hg n
    have hmono := zoomTarget_mono_le s g hs0 hs1 hg0 hg n
    obtain ⟨hA, hprod⟩ := zoomProd_le s g hs0 hs1 hg0 hg n
    refine ⟨?_, ?_, ?_⟩
    · rw [zoomApplied_formula, zoomApplied_formula]
      nlinarith [mul_nonneg (mul_nonneg (by linarith : (0 : ℝ) ≤ 1 - s)
        (by linarith : (0 : ℝ) ≤ g)) (sub_nonneg.mpr hmono)]
    · rw [zoomApplied_formula]
      nlinarith
    · nlinarith

/-- C9 witness: the amended statement instantiated at smoothness 3/4, raw
factor fixed per frame, first frame. -/
theorem claim_C9_zoom_smoothing_amended_witness :
    ((0 : ℝ) ≤ 3 / 4 ∧ (3 / 4 : ℝ) < 1)
  ∧ (((zoomControlStep (3 / 4) 2 (zoomTargetIter (3 / 4) 2 0)).2
        = lerp 1 (zoomTargetIter (3 / 4) 2 0 * 2) (1 - 3 / 4)
      ∧ zoomTargetIter (3 / 4) 2 (0 + 1)
        = zoomTargetIter (3 / 4) 2 0 * 2 / (zoomControlStep (3 / 4) 2 (zoomTargetIter (3 / 4) 2 0)).2)
    ∧ (1 ≤ (2 : ℝ) →
        zoomAppliedAt (3 / 4) 2 0 ≤ zoomAppliedAt (3 / 4) 2 (0 + 1)
        ∧ zoomAppliedAt (3 / 4) 2 0 ≤ 2
        ∧ zoomCumApplied (3 / 4) 2 0 ≤ 2 ^ 0)
    ∧ ((0 : ℝ) < 2 → (2 : ℝ) ≤ 1 →
        zoomAppliedAt (3 / 4) 2 (0 + 1) ≤ zoomAppliedAt (3 / 4) 2 0
        ∧ (2 : ℝ) ≤ zoomAppliedAt (3 / 4) 2 0
        ∧ (2 : ℝ) ^ 0 ≤ zoomCumApplied (3 / 4) 2 0)) := by
  exact ⟨⟨by norm_num, by norm_num⟩,
    claim_C9_zoom_smoothing_amended (3 / 4) 2 (by norm_num) (by norm_num) 0⟩

end OrbitCam
